import Mathlib

/-!
Shallow embedding of the explicit-MPM substep kernel of
`src/week12_taichi_mpm_2d.py` (a 3D Taichi MPM simulation).

Modelling choices:
* All floats are modelled as exact rationals (claims are stated in exact
  real arithmetic).
* `ti.svd` is an external library primitive; it is modelled as an abstract
  parameter `svd : Mat3 → Mat3 × Mat3 × Mat3` returning `(U, sig, V)`.
  Theorems that depend on properties of a genuine SVD take those
  properties as hypotheses.
* Taichi's `.cast(int)` conversion from float to int truncates toward
  zero (C semantics); it is modelled by `castInt`.
* The background grid is a total function from integer node coordinates;
  staying inside `[0, n_grid-1]` on each axis is a property (see
  `accessInBounds`), not a typing constraint.
* The Taichi parallel loops scatter by commutative `+=` accumulation, so
  they are embedded as left folds over the particle list and over the
  statically unrolled 3×3×3 neighbourhood list `nbhd`.
-/

namespace MPM

abbrev Vec3 := Fin 3 → ℚ
abbrev Mat3 := Matrix (Fin 3) (Fin 3) ℚ

/-- `n_grid = 128 * quality` with `quality = 1`. -/
def n_grid : ℕ := 128

/-- `dx = 1 / n_grid`. -/
def dx : ℚ := 1 / n_grid

/-- `inv_dx = float(n_grid)`. -/
def inv_dx : ℚ := n_grid

/-- `dt = 1e-4 / quality` with `quality = 1`. -/
def dt : ℚ := 1 / 10000

/-- `p_vol = (dx * 0.5) ** 2`. -/
def p_vol : ℚ := (dx * (1/2)) ^ 2

/-- `p_rho = 1`. -/
def p_rho : ℚ := 1

/-- `p_mass = p_vol * p_rho`. -/
def p_mass : ℚ := p_vol * p_rho

/-- Young's modulus `E = 1e3`. -/
def youngE : ℚ := 1000

/-- Poisson ratio `nu = 0.2`. -/
def poissonNu : ℚ := 1 / 5

/-- `mu_0 = E / (2 * (1 + nu))`. -/
def mu_0 : ℚ := youngE / (2 * (1 + poissonNu))

/-- `lambda_0 = E * nu / ((1 + nu) * (1 - 2 * nu))`. -/
def lambda_0 : ℚ := youngE * poissonNu / ((1 + poissonNu) * (1 - 2 * poissonNu))

/-- Taichi float-to-int cast: truncation toward zero. -/
def castInt (q : ℚ) : ℤ := if 0 ≤ q then ⌊q⌋ else ⌈q⌉

/-- Per-particle state: position, velocity, affine velocity matrix,
deformation gradient and plastic scalar. -/
structure Particle where
  x : Vec3
  v : Vec3
  C : Mat3
  F : Mat3
  Jp : ℚ

/-- Transient grid state: per-node momentum/velocity and mass, indexed by
integer 3D node coordinates. -/
structure Grid where
  v : ℤ × ℤ × ℤ → Vec3
  m : ℤ × ℤ × ℤ → ℚ

/-- Abstract model of `ti.svd`: maps a matrix to `(U, sig, V)`. -/
abbrev Svd := Mat3 → Mat3 × Mat3 × Mat3

/-- `kirchoff_FCR`: `2 * mu * (F - R) @ F.transpose() + Id * la * J * (J - 1)`. -/
def kirchoff_FCR (F R : Mat3) (J mu la : ℚ) : Mat3 :=
  (2 * mu) • ((F - R) * F.transpose) + (la * J * (J - 1)) • (1 : Mat3)

/-- P2G line 43: `base = (x[p] * inv_dx - 0.5).cast(int)`. -/
def baseP2G (x : Vec3) : Fin 3 → ℤ := fun a => castInt (x a * inv_dx - 1/2)

/-- P2G line 44: `fx = x[p] * inv_dx - base.cast(float)`. -/
def fxP2G (x : Vec3) : Vec3 := fun a => x a * inv_dx - (baseP2G x a : ℚ)

/-- P2G line 47: quadratic B-spline weights
`w = [0.5 * (1.5 - fx) ** 2, 0.75 - (fx - 1) ** 2, 0.5 * (fx - 0.5) ** 2]`;
`wP2G fx i a` is `w[i][a]`. -/
def wP2G (fx : Vec3) : Fin 3 → Fin 3 → ℚ := fun i a =>
  ![1/2 * (3/2 - fx a) ^ 2, 3/4 - (fx a - 1) ^ 2, 1/2 * (fx a - 1/2) ^ 2] i

/-- P2G line 48: `dw = [fx - 1.5, -2.0 * (fx - 1), fx - 0.5]`;
`dwP2G fx i a` is `dw[i][a]`. -/
def dwP2G (fx : Vec3) : Fin 3 → Fin 3 → ℚ := fun i a =>
  ![fx a - 3/2, -2 * (fx a - 1), fx a - 1/2] i

/-- G2P line 108: `base = (x[p] * inv_dx - 0.5).cast(int)`. -/
def baseG2P (x : Vec3) : Fin 3 → ℤ := fun a => castInt (x a * inv_dx - 1/2)

/-- G2P line 109: `fx = x[p] * inv_dx - base.cast(float)`. -/
def fxG2P (x : Vec3) : Vec3 := fun a => x a * inv_dx - (baseG2P x a : ℚ)

/-- G2P line 110: `w = [0.5 * (1.5 - fx) ** 2, 0.75 - (fx - 1.0) ** 2, 0.5 * (fx - 0.5) ** 2]`. -/
def wG2P (fx : Vec3) : Fin 3 → Fin 3 → ℚ := fun i a =>
  ![1/2 * (3/2 - fx a) ^ 2, 3/4 - (fx a - 1) ^ 2, 1/2 * (fx a - 1/2) ^ 2] i

/-- G2P line 111: `dw = [fx - 1.5, -2.0 * (fx - 1), fx - 0.5]`. -/
def dwG2P (fx : Vec3) : Fin 3 → Fin 3 → ℚ := fun i a =>
  ![fx a - 3/2, -2 * (fx a - 1), fx a - 1/2] i

/-- The statically unrolled `ti.ndrange(3, 3, 3)` neighbourhood loop. -/
def nbhd : List (Fin 3 × Fin 3 × Fin 3) :=
  [(0,0,0),(0,0,1),(0,0,2),(0,1,0),(0,1,1),(0,1,2),(0,2,0),(0,2,1),(0,2,2),
   (1,0,0),(1,0,1),(1,0,2),(1,1,0),(1,1,1),(1,1,2),(1,2,0),(1,2,1),(1,2,2),
   (2,0,0),(2,0,1),(2,0,2),(2,1,0),(2,1,1),(2,1,2),(2,2,0),(2,2,1),(2,2,2)]

/-- The grid node `base + offset` written by the P2G scatter. -/
def nodeOf (x : Vec3) (o : Fin 3 × Fin 3 × Fin 3) : ℤ × ℤ × ℤ :=
  (baseP2G x 0 + (o.1 : ℤ), baseP2G x 1 + (o.2.1 : ℤ), baseP2G x 2 + (o.2.2 : ℤ))

/-- The scalar interpolation weight `w[i][0] * w[j][1] * w[k][2]` of P2G. -/
def weightP2G (x : Vec3) (o : Fin 3 × Fin 3 × Fin 3) : ℚ :=
  wP2G (fxP2G x) o.1 0 * wP2G (fxP2G x) o.2.1 1 * wP2G (fxP2G x) o.2.2 2

/-- The weight gradient `dweight` of P2G, lines 71-74. -/
def dweightP2G (x : Vec3) (o : Fin 3 × Fin 3 × Fin 3) : Vec3 :=
  let fx := fxP2G x
  ![inv_dx * dwP2G fx o.1 0 * wP2G fx o.2.1 1 * wP2G fx o.2.2 2,
    inv_dx * wP2G fx o.1 0 * dwP2G fx o.2.1 1 * wP2G fx o.2.2 2,
    inv_dx * wP2G fx o.1 0 * wP2G fx o.2.1 1 * dwP2G fx o.2.2 2]

/-- `dpos = (offset.cast(float) - fx) * dx` of the P2G loop. -/
def dposP2G (x : Vec3) (o : Fin 3 × Fin 3 × Fin 3) : Vec3 :=
  fun a => ((![(o.1 : ℚ), (o.2.1 : ℚ), (o.2.2 : ℚ)] a) - fxP2G x a) * dx

/-- Accumulating scatter: fold of `f[g o] += c o` updates over a list,
the shape of the Taichi `+=` scatter loops. -/
def scatterAcc {ι κ M : Type} [DecidableEq κ] [AddCommMonoid M]
    (g : ι → κ) (c : ι → M) (l : List ι) (f0 : κ → M) : κ → M :=
  l.foldl (fun f o => Function.update f (g o) (f (g o) + c o)) f0

/-- Accumulating sum: fold of `acc += f o` over a list, the shape of the
Taichi gather loops. -/
def accSum {ι M : Type} [AddCommMonoid M] (f : ι → M) (l : List ι) (a : M) : M :=
  l.foldl (fun acc o => acc + f o) a

/-- The statically unrolled `ti.static(range(3))` loop index list. -/
def dRange : List (Fin 3) := [0, 1, 2]

/-- Lines 52-59: fold over `d in range(3)` computing `J` as the running
product of `sig[d, d]` and updating `Jp` by the factor `sig[d,d] / new_sig`
with `new_sig = sig[d, d]`.  Returns `(J, updated Jp)`. -/
def jLoop (sig : Mat3) (jp : ℚ) : ℚ × ℚ :=
  dRange.foldl
    (fun s d =>
      let new_sig := sig d d
      (s.1 * new_sig, s.2 * (sig d d / new_sig)))
    (1, jp)

/-- The Kirchhoff stress computed and used by the P2G loop (lines 52-62):
`kirchoff_FCR(F[p], U @ V.transpose(), J, mu_0, lambda_0)` with
`(U, sig, V) = ti.svd(F[p])` and `J` from the singular-value loop. -/
def stressOf (svd : Svd) (p : Particle) : Mat3 :=
  let usv := svd p.F
  kirchoff_FCR p.F (usv.1 * usv.2.2.transpose) (jLoop usv.2.1 p.Jp).1 mu_0 lambda_0

/-- Per-particle-per-offset momentum contribution of the P2G scatter,
lines 79 and 82: `p_mass * weight * (v[p] + C[p] @ dpos)` together with
`dt * force`, `force = -p_vol * kirchoff @ dweight`. -/
def momContrib (svd : Svd) (p : Particle) (o : Fin 3 × Fin 3 × Fin 3) : Vec3 :=
  (p_mass * weightP2G p.x o) • (p.v + p.C.mulVec (dposP2G p.x o))
    + dt • ((-p_vol) • (stressOf svd p).mulVec (dweightP2G p.x o))

/-- Per-particle-per-offset mass contribution, line 80: `weight * p_mass`. -/
def massContrib (p : Particle) (o : Fin 3 × Fin 3 × Fin 3) : ℚ :=
  weightP2G p.x o * p_mass

/-- The P2G scatter of one particle: fold of `+=` updates over the
3×3×3 neighbourhood, writing momentum and mass at `base + offset`. -/
def p2gParticle (svd : Svd) (g : Grid) (p : Particle) : Grid :=
  { v := scatterAcc (nodeOf p.x) (momContrib svd p) nbhd g.v,
    m := scatterAcc (nodeOf p.x) (massContrib p) nbhd g.m }

/-- Lines 35-37: grid reset, every node mass and momentum zeroed. -/
def gridReset : Grid := { v := fun _ => 0, m := fun _ => 0 }

/-- The full P2G phase: scatter every particle into the reset grid. -/
def p2g (svd : Svd) (ps : List Particle) : Grid :=
  ps.foldl (p2gParticle svd) gridReset

/-- The particle-side effect of the P2G loop (line 57): `Jp[p] *= sig[d,d] / new_sig`. -/
def p2gJp (svd : Svd) (p : Particle) : Particle :=
  { p with Jp := (jLoop (svd p.F).2.1 p.Jp).2 }

/-- The component index of a grid node along each axis. -/
def nodeCoord (n : ℤ × ℤ × ℤ) : Fin 3 → ℤ := ![n.1, n.2.1, n.2.2]

/-- One low-face wall check, e.g. line 99:
`if i < 3 and grid_v[i,j,k][0] < 0: grid_v[i,j,k][0] = 0`. -/
def wallLow (c : ℤ) (a : Fin 3) (v : Vec3) : Vec3 :=
  if c < 3 ∧ v a < 0 then Function.update v a 0 else v

/-- One high-face wall check, e.g. line 100:
`if i > n_grid - 3 and grid_v[i,j,k][0] > 0: grid_v[i,j,k][0] = 0`. -/
def wallHigh (c : ℤ) (a : Fin 3) (v : Vec3) : Vec3 :=
  if (n_grid : ℤ) - 3 < c ∧ 0 < v a then Function.update v a 0 else v

/-- Lines 99-104: the six sequential one-sided wall checks, applied in
source order (axis 0 low, axis 0 high, axis 1 low, ..., axis 2 high). -/
def applyWalls (n : ℤ × ℤ × ℤ) (v0 : Vec3) : Vec3 :=
  wallHigh n.2.2 2 (wallLow n.2.2 2
    (wallHigh n.2.1 1 (wallLow n.2.1 1
      (wallHigh n.1 0 (wallLow n.1 0 v0)))))

/-- Lines 86-104, one node: if `grid_m > 0`, convert momentum to velocity,
apply gravity, then the wall checks; otherwise leave the node untouched. -/
def updateNode (n : ℤ × ℤ × ℤ) (m : ℚ) (mom : Vec3) (gravity : Vec3) : Vec3 :=
  if 0 < m then
    applyWalls n ((1 / m) • mom + (dt * (49/5)) • gravity)
  else mom

/-- The grid-update phase over the whole grid. -/
def gridOp (gravity : Vec3) (g : Grid) : Grid :=
  { v := fun n => updateNode n (g.m n) (g.v n) gravity, m := g.m }

/-- `dpos = offset.cast(float) - fx` of the G2P loop (line 116, no `dx` factor). -/
def dposG2P (x : Vec3) (o : Fin 3 × Fin 3 × Fin 3) : Vec3 :=
  fun a => (![(o.1 : ℚ), (o.2.1 : ℚ), (o.2.2 : ℚ)] a) - fxG2P x a

/-- The scalar interpolation weight of G2P (line 118). -/
def weightG2P (x : Vec3) (o : Fin 3 × Fin 3 × Fin 3) : ℚ :=
  wG2P (fxG2P x) o.1 0 * wG2P (fxG2P x) o.2.1 1 * wG2P (fxG2P x) o.2.2 2

/-- The weight gradient `dweight` of G2P, lines 121-124. -/
def dweightG2P (x : Vec3) (o : Fin 3 × Fin 3 × Fin 3) : Vec3 :=
  let fx := fxG2P x
  ![inv_dx * dwG2P fx o.1 0 * wG2P fx o.2.1 1 * wG2P fx o.2.2 2,
    inv_dx * wG2P fx o.1 0 * dwG2P fx o.2.1 1 * wG2P fx o.2.2 2,
    inv_dx * wG2P fx o.1 0 * wG2P fx o.2.1 1 * dwG2P fx o.2.2 2]

/-- The grid node `base + offset` read by the G2P gather (line 117). -/
def nodeOfG2P (x : Vec3) (o : Fin 3 × Fin 3 × Fin 3) : ℤ × ℤ × ℤ :=
  (baseG2P x 0 + (o.1 : ℤ), baseG2P x 1 + (o.2.1 : ℤ), baseG2P x 2 + (o.2.2 : ℤ))

/-- Lines 112-126: accumulation of `new_v += weight * g_v`. -/
def g2pNewV (g : Grid) (x : Vec3) : Vec3 :=
  accSum (fun o => weightG2P x o • g.v (nodeOfG2P x o)) nbhd 0

/-- Line 127: `new_C += 4 * inv_dx * weight * g_v.outer_product(dpos)`. -/
def g2pNewC (g : Grid) (x : Vec3) : Mat3 :=
  accSum (fun o =>
    (4 * inv_dx * weightG2P x o) •
      Matrix.vecMulVec (g.v (nodeOfG2P x o)) (dposG2P x o)) nbhd 0

/-- Line 128: `new_F += g_v.outer_product(dweight)`. -/
def g2pNewF (g : Grid) (x : Vec3) : Mat3 :=
  accSum (fun o => Matrix.vecMulVec (g.v (nodeOfG2P x o)) (dweightG2P x o)) nbhd 0

/-- Lines 107-134, one particle: gather the new velocity, affine velocity
and velocity gradient, advect the position, update `F`. -/
def g2pParticle (g : Grid) (p : Particle) : Particle :=
  let new_v := g2pNewV g p.x
  let new_C := g2pNewC g p.x
  let new_F := g2pNewF g p.x
  { x := p.x + dt • new_v
    v := new_v
    C := new_C
    F := ((1 : Mat3) + dt • new_F) * p.F
    Jp := p.Jp }

/-- One full `substep()`: grid reset, P2G (grid scatter plus the `Jp`
particle update), grid update, G2P. -/
def substep (svd : Svd) (gravity : Vec3) (ps : List Particle) : List Particle :=
  let g := gridOp gravity (p2g svd ps)
  ps.map (fun p => g2pParticle g (p2gJp svd p))

/-- A grid node coordinate triple is in bounds when each component lies in
`[0, n_grid - 1]`. -/
def accessInBounds (n : ℤ × ℤ × ℤ) : Prop :=
  (0 ≤ n.1 ∧ n.1 ≤ (n_grid : ℤ) - 1) ∧
  (0 ≤ n.2.1 ∧ n.2.1 ≤ (n_grid : ℤ) - 1) ∧
  (0 ≤ n.2.2 ∧ n.2.2 ≤ (n_grid : ℤ) - 1)

instance (n : ℤ × ℤ × ℤ) : Decidable (accessInBounds n) := by
  unfold accessInBounds; infer_instance

/-- The finite set of in-bounds grid nodes. -/
def gridNodes : Finset (ℤ × ℤ × ℤ) :=
  Finset.Icc 0 ((n_grid : ℤ) - 1) ×ˢ
    (Finset.Icc 0 ((n_grid : ℤ) - 1) ×ˢ Finset.Icc 0 ((n_grid : ℤ) - 1))

/-- Total mass held on the grid (sum of `grid_m` over all grid nodes). -/
def totalGridMass (g : Grid) : ℚ := ∑ n ∈ gridNodes, g.m n

/-- The non-plastic components of a particle (everything except `Jp`). -/
def nonJp (p : Particle) : Vec3 × Vec3 × Mat3 × Mat3 := (p.x, p.v, p.C, p.F)

/-- A concrete SVD oracle valid at the identity matrix: it returns
`(U, sig, V) = (I, I, I)` for every input. -/
def svdId : Svd := fun _ => (1, 1, 1)

/-- A concrete particle at the domain centre with zero velocity, zero
affine velocity, identity deformation gradient and unit plastic scalar. -/
def pHalf : Particle := ⟨fun _ => 1/2, 0, 0, 1, 1⟩

/-- A concrete particle at the domain centre with nonzero velocity, zero
affine velocity, identity deformation gradient and unit plastic scalar. -/
def pMove : Particle := ⟨fun _ => 1/2, ![1, 2, 3], 0, 1, 1⟩

/-! ### Generic accumulation lemmas -/

theorem scatterAcc_apply {ι κ M : Type} [DecidableEq κ] [AddCommMonoid M]
    (g : ι → κ) (c : ι → M) (l : List ι) (f0 : κ → M) (n : κ) :
    scatterAcc g c l f0 n = f0 n + (l.map fun o => if g o = n then c o else 0).sum := by
  induction l generalizing f0 with
  | nil => simp [scatterAcc]
  | cons o l ih =>
    rw [scatterAcc, List.foldl_cons, ← scatterAcc, ih, List.map_cons, List.sum_cons,
      ← add_assoc]
    congr 1
    by_cases h : g o = n
    · subst h; simp
    · simp [Function.update_apply, h, Ne.symm h]

theorem accSum_eq {ι M : Type} [AddCommMonoid M] (f : ι → M) (l : List ι) (a : M) :
    accSum f l a = a + (l.map f).sum := by
  induction l generalizing a with
  | nil => simp [accSum]
  | cons o l ih =>
    rw [accSum, List.foldl_cons, ← accSum, ih]
    simp [add_assoc]

theorem finsetSum_listSum {α β M : Type} [AddCommMonoid M] (s : Finset α) (l : List β)
    (f : β → α → M) :
    ∑ n ∈ s, (l.map fun p => f p n).sum = (l.map fun p => ∑ n ∈ s, f p n).sum := by
  induction l with
  | nil => simp
  | cons p l ih => simp [Finset.sum_add_distrib, ih]

theorem listSum_smul_const {β : Type} (l : List β) (c : β → ℚ) (v : Vec3) :
    (l.map fun o => c o • v).sum = (l.map c).sum • v := by
  induction l with
  | nil => simp
  | cons o l ih => simp [ih, add_smul]

theorem exists_ne_zero_of_listSum_ne_zero {β M : Type} [AddCommMonoid M] {l : List β}
    {f : β → M} (h : (l.map f).sum ≠ 0) : ∃ b ∈ l, f b ≠ 0 := by
  induction l with
  | nil => simp at h
  | cons p l ih =>
    by_cases hp : f p = 0
    · rw [List.map_cons, List.sum_cons, hp, zero_add] at h
      obtain ⟨b, hb, hfb⟩ := ih h
      exact ⟨b, List.mem_cons_of_mem _ hb, hfb⟩
    · exact ⟨p, List.mem_cons_self _ _, hp⟩

theorem single_le_listSum {β : Type} {l : List β} {f : β → ℚ}
    (hpos : ∀ b ∈ l, 0 ≤ f b) {b : β} (hb : b ∈ l) : f b ≤ (l.map f).sum := by
  induction l with
  | nil => cases hb
  | cons p l ih =>
    rw [List.map_cons, List.sum_cons]
    rcases List.mem_cons.mp hb with h | h
    · subst h
      have : 0 ≤ (l.map f).sum := by
        apply List.sum_nonneg
        intro q hq
        obtain ⟨c, hc, rfl⟩ := List.mem_map.mp hq
        exact hpos c (List.mem_cons_of_mem _ hc)
      linarith
    · have h1 := ih (fun c hc => hpos c (List.mem_cons_of_mem _ hc)) h
      have h2 := hpos p (List.mem_cons_self _ _)
      linarith

theorem listSum_nonneg {β : Type} {l : List β} {f : β → ℚ}
    (hpos : ∀ b ∈ l, 0 ≤ f b) : 0 ≤ (l.map f).sum := by
  apply List.sum_nonneg
  intro q hq
  obtain ⟨c, hc, rfl⟩ := List.mem_map.mp hq
  exact hpos c hc

/-! ### Characterization of the P2G scatter -/

theorem p2gParticle_m (svd : Svd) (g : Grid) (p : Particle) (n : ℤ × ℤ × ℤ) :
    (p2gParticle svd g p).m n
      = g.m n + (nbhd.map fun o => if nodeOf p.x o = n then massContrib p o else 0).sum :=
  scatterAcc_apply (nodeOf p.x) (massContrib p) nbhd g.m n

theorem p2gParticle_v (svd : Svd) (g : Grid) (p : Particle) (n : ℤ × ℤ × ℤ) :
    (p2gParticle svd g p).v n
      = g.v n + (nbhd.map fun o => if nodeOf p.x o = n then momContrib svd p o else 0).sum :=
  scatterAcc_apply (nodeOf p.x) (momContrib svd p) nbhd g.v n

theorem p2g_foldl_m (svd : Svd) (ps : List Particle) (g : Grid) (n : ℤ × ℤ × ℤ) :
    (ps.foldl (p2gParticle svd) g).m n
      = g.m n + (ps.map fun p =>
          (nbhd.map fun o => if nodeOf p.x o = n then massContrib p o else 0).sum).sum := by
  induction ps generalizing g with
  | nil => simp
  | cons p ps ih => simp [List.foldl_cons, ih, p2gParticle_m, add_assoc]

theorem p2g_foldl_v (svd : Svd) (ps : List Particle) (g : Grid) (n : ℤ × ℤ × ℤ) :
    (ps.foldl (p2gParticle svd) g).v n
      = g.v n + (ps.map fun p =>
          (nbhd.map fun o => if nodeOf p.x o = n then momContrib svd p o else 0).sum).sum := by
  induction ps generalizing g with
  | nil => simp
  | cons p ps ih => simp [List.foldl_cons, ih, p2gParticle_v, add_assoc]

theorem p2g_m (svd : Svd) (ps : List Particle) (n : ℤ × ℤ × ℤ) :
    (p2g svd ps).m n
      = (ps.map fun p =>
          (nbhd.map fun o => if nodeOf p.x o = n then massContrib p o else 0).sum).sum := by
  rw [p2g, p2g_foldl_m]; simp [gridReset]

theorem p2g_v (svd : Svd) (ps : List Particle) (n : ℤ × ℤ × ℤ) :
    (p2g svd ps).v n
      = (ps.map fun p =>
          (nbhd.map fun o => if nodeOf p.x o = n then momContrib svd p o else 0).sum).sum := by
  rw [p2g, p2g_foldl_v]; simp [gridReset]

/-! ### The singular-value loop -/

theorem jLoop_fst (sig : Mat3) (jp : ℚ) :
    (jLoop sig jp).1 = sig 0 0 * sig 1 1 * sig 2 2 := by
  simp [jLoop, dRange, List.foldl]

theorem jLoop_snd (sig : Mat3) (jp : ℚ)
    (h0 : sig 0 0 ≠ 0) (h1 : sig 1 1 ≠ 0) (h2 : sig 2 2 ≠ 0) :
    (jLoop sig jp).2 = jp := by
  simp [jLoop, dRange, List.foldl]
  rw [div_self h0, div_self h1, div_self h2]
  ring

/-! ### Quadratic B-spline weight algebra -/

theorem wP2G_e0 (fx : Vec3) (a : Fin 3) : wP2G fx 0 a = 1/2 * (3/2 - fx a) ^ 2 := rfl

theorem wP2G_e1 (fx : Vec3) (a : Fin 3) : wP2G fx 1 a = 3/4 - (fx a - 1) ^ 2 := rfl

theorem wP2G_e2 (fx : Vec3) (a : Fin 3) : wP2G fx 2 a = 1/2 * (fx a - 1/2) ^ 2 := rfl

theorem dwP2G_e0 (fx : Vec3) (a : Fin 3) : dwP2G fx 0 a = fx a - 3/2 := rfl

theorem dwP2G_e1 (fx : Vec3) (a : Fin 3) : dwP2G fx 1 a = -2 * (fx a - 1) := rfl

theorem dwP2G_e2 (fx : Vec3) (a : Fin 3) : dwP2G fx 2 a = fx a - 1/2 := rfl

/-- The three per-axis quadratic B-spline weights sum to 1 at any `fx`. -/
theorem wP2G_sum (fx : Vec3) (a : Fin 3) :
    wP2G fx 0 a + wP2G fx 1 a + wP2G fx 2 a = 1 := by
  rw [wP2G_e0, wP2G_e1, wP2G_e2]; ring

/-- The three per-axis weight derivatives sum to 0 at any `fx`. -/
theorem dwP2G_sum (fx : Vec3) (a : Fin 3) :
    dwP2G fx 0 a + dwP2G fx 1 a + dwP2G fx 2 a = 0 := by
  rw [dwP2G_e0, dwP2G_e1, dwP2G_e2]; ring

/-- The 27 trilinear weight products of the scatter sum to 1. -/
theorem weightP2G_total (x : Vec3) : (nbhd.map fun o => weightP2G x o).sum = 1 := by
  have e : (nbhd.map fun o => weightP2G x o).sum
      = (wP2G (fxP2G x) 0 0 + wP2G (fxP2G x) 1 0 + wP2G (fxP2G x) 2 0)
        * ((wP2G (fxP2G x) 0 1 + wP2G (fxP2G x) 1 1 + wP2G (fxP2G x) 2 1)
        * (wP2G (fxP2G x) 0 2 + wP2G (fxP2G x) 1 2 + wP2G (fxP2G x) 2 2)) := by
    simp [nbhd, weightP2G]
    ring
  rw [e, wP2G_sum, wP2G_sum, wP2G_sum]
  norm_num

/-- Taichi cast agrees with floor on nonnegative arguments. -/
theorem castInt_of_nonneg {q : ℚ} (h : 0 ≤ q) : castInt q = ⌊q⌋ := if_pos h

/-- In-range particles (each coordinate at least half a cell from the
origin) have local offsets `fx` in `[1/2, 3/2)` on each axis. -/
theorem fxP2G_bounds {x : Vec3} {a : Fin 3} (h : 1/2 ≤ x a * inv_dx) :
    1/2 ≤ fxP2G x a ∧ fxP2G x a < 3/2 := by
  have hq : (0:ℚ) ≤ x a * inv_dx - 1/2 := by linarith
  have hb : (baseP2G x a : ℚ) = ((⌊x a * inv_dx - 1/2⌋ : ℤ) : ℚ) := by
    rw [baseP2G, castInt, if_pos hq]
  have h1 : ((⌊x a * inv_dx - 1/2⌋ : ℤ) : ℚ) ≤ x a * inv_dx - 1/2 := Int.floor_le _
  have h2 : x a * inv_dx - 1/2 < (⌊x a * inv_dx - 1/2⌋ : ℤ) + 1 := Int.lt_floor_add_one _
  unfold fxP2G
  rw [hb]
  constructor <;> linarith

/-- For `fx` in `[1/2, 3/2)` each per-axis weight is nonnegative. -/
theorem wP2G_nonneg {fx : Vec3} {a : Fin 3} (h1 : 1/2 ≤ fx a) (h2 : fx a < 3/2)
    (i : Fin 3) : 0 ≤ wP2G fx i a := by
  fin_cases i
  · rw [show (⟨0, by omega⟩ : Fin 3) = 0 from rfl, wP2G_e0]; positivity
  · rw [show (⟨1, by omega⟩ : Fin 3) = 1 from rfl, wP2G_e1]; nlinarith
  · rw [show (⟨2, by omega⟩ : Fin 3) = 2 from rfl, wP2G_e2]; positivity

/-- For `fx` in `[1/2, 3/2)` a vanishing per-axis weight forces a
vanishing per-axis weight derivative (the kernel touches zero only
tangentially). -/
theorem dwP2G_eq_zero {fx : Vec3} {a : Fin 3} (h1 : 1/2 ≤ fx a) (h2 : fx a < 3/2)
    (i : Fin 3) (hw : wP2G fx i a = 0) : dwP2G fx i a = 0 := by
  fin_cases i
  · exfalso
    rw [show (⟨0, by omega⟩ : Fin 3) = 0 from rfl, wP2G_e0] at hw
    nlinarith [mul_pos (show (0:ℚ) < 3/2 - fx a by linarith)
      (show (0:ℚ) < 3/2 - fx a by linarith)]
  · exfalso
    rw [show (⟨1, by omega⟩ : Fin 3) = 1 from rfl, wP2G_e1] at hw
    nlinarith [sq_nonneg (fx a - 1)]
  · rw [show (⟨2, by omega⟩ : Fin 3) = 2 from rfl, wP2G_e2] at hw
    rw [show (⟨2, by omega⟩ : Fin 3) = 2 from rfl, dwP2G_e2]
    have hsq : (fx a - 1/2) ^ 2 = 0 := by linarith
    have := (pow_eq_zero_iff (by norm_num : (2:ℕ) ≠ 0)).mp hsq
    linarith [this]

/-! ### Claim theorems -/

/-- **C1.** For every particle, the Kirchhoff stress used for the P2G force
computation equals `2·mu·(F − R)·Fᵀ + lambda·I·J·(J − 1)` where `R = U·Vᵀ`
comes from the SVD of `F`, `J` is the product of the singular values
(diagonal of `sig`), and `mu = E/(2(1+nu))`, `lambda = E·nu/((1+nu)(1−2nu))`
with `E = 1e3` and `nu = 0.2`. -/
theorem C1_kirchhoff_stress (svd : Svd) (p : Particle) :
    stressOf svd p
      = (2 * (youngE / (2 * (1 + poissonNu)))) •
          ((p.F - (svd p.F).1 * ((svd p.F).2.2).transpose) * p.F.transpose)
        + ((youngE * poissonNu / ((1 + poissonNu) * (1 - 2 * poissonNu)))
            * ((svd p.F).2.1 0 0 * (svd p.F).2.1 1 1 * (svd p.F).2.1 2 2)
            * ((svd p.F).2.1 0 0 * (svd p.F).2.1 1 1 * (svd p.F).2.1 2 2 - 1)) • (1 : Mat3)
      ∧ youngE = 1000 ∧ poissonNu = 1/5 := by
  refine ⟨?_, rfl, rfl⟩
  show kirchoff_FCR p.F ((svd p.F).1 * ((svd p.F).2.2).transpose)
    (jLoop (svd p.F).2.1 p.Jp).1 mu_0 lambda_0 = _
  rw [kirchoff_FCR, jLoop_fst]
  rfl

/-- **C2.** During P2G, for every particle and each of its 27 neighbour
nodes, the momentum accumulator receives
`p_mass·weight·(v + C·((offset − fx)·dx)) + dt·(−p_vol·tau·dweight)` and
the mass accumulator receives `p_mass·weight`; the force enters the
momentum accumulator directly (it is never divided by the node mass). -/
theorem C2_p2g_scatter (svd : Svd) (ps : List Particle) (n : ℤ × ℤ × ℤ) :
    (p2g svd ps).v n
      = (ps.map fun p => (nbhd.map fun o =>
          if nodeOf p.x o = n then
            (p_mass * weightP2G p.x o) • (p.v + p.C.mulVec (dposP2G p.x o))
              + dt • ((-p_vol) • (stressOf svd p).mulVec (dweightP2G p.x o))
          else 0).sum).sum
    ∧ (p2g svd ps).m n
      = (ps.map fun p => (nbhd.map fun o =>
          if nodeOf p.x o = n then p_mass * weightP2G p.x o else 0).sum).sum := by
  constructor
  · exact p2g_v svd ps n
  · rw [p2g_m]
    simp only [massContrib, mul_comm]

/-- **C5.** During G2P, for every particle, the new velocity is the sum
over the 27 neighbour nodes of `weight·nodeVelocity`, the new affine
velocity is the sum of `4·inv_dx·weight·outer(nodeVelocity, offset − fx)`,
the position advances by `dt` times the new velocity, and the deformation
gradient becomes `(I + dt·G)·F_old` with
`G = Σ outer(nodeVelocity, dweight)`. -/
theorem C5_g2p_gather (g : Grid) (p : Particle) :
    (g2pParticle g p).v = (nbhd.map fun o => weightG2P p.x o • g.v (nodeOfG2P p.x o)).sum
    ∧ (g2pParticle g p).C = (nbhd.map fun o =>
        (4 * inv_dx * weightG2P p.x o) •
          Matrix.vecMulVec (g.v (nodeOfG2P p.x o)) (dposG2P p.x o)).sum
    ∧ (g2pParticle g p).x = p.x + dt • (g2pParticle g p).v
    ∧ (g2pParticle g p).F
        = ((1 : Mat3) + dt • (nbhd.map fun o =>
            Matrix.vecMulVec (g.v (nodeOfG2P p.x o)) (dweightG2P p.x o)).sum) * p.F := by
  refine ⟨?_, ?_, rfl, ?_⟩
  · show g2pNewV g p.x = _
    rw [g2pNewV, accSum_eq, zero_add]
  · show g2pNewC g p.x = _
    rw [g2pNewC, accSum_eq, zero_add]
  · show ((1 : Mat3) + dt • g2pNewF g p.x) * p.F = _
    rw [g2pNewF, accSum_eq, zero_add]

/-! ### Wall-check characterization -/

theorem wallLow_ne (c : ℤ) (a : Fin 3) (v : Vec3) {b : Fin 3} (h : b ≠ a) :
    wallLow c a v b = v b := by
  rw [wallLow]
  split_ifs <;> simp [Function.update_apply, h]

theorem wallHigh_ne (c : ℤ) (a : Fin 3) (v : Vec3) {b : Fin 3} (h : b ≠ a) :
    wallHigh c a v b = v b := by
  rw [wallHigh]
  split_ifs <;> simp [Function.update_apply, h]

theorem wallPair (c : ℤ) (a : Fin 3) (v : Vec3) :
    wallHigh c a (wallLow c a v) a
      = if (c < 3 ∧ v a < 0) ∨ ((n_grid : ℤ) - 3 < c ∧ 0 < v a) then 0 else v a := by
  rw [wallLow]
  by_cases h1 : c < 3 ∧ v a < 0
  · rw [if_pos h1, wallHigh, Function.update_same]
    rw [if_neg (show ¬(((n_grid:ℤ) - 3 < c) ∧ (0:ℚ) < 0) from by simp)]
    rw [Function.update_same, if_pos (Or.inl h1)]
  · rw [if_neg h1, wallHigh]
    by_cases h2 : (n_grid : ℤ) - 3 < c ∧ 0 < v a
    · rw [if_pos h2, Function.update_same, if_pos (Or.inr h2)]
    · rw [if_neg h2, if_neg (not_or.mpr ⟨h1, h2⟩)]

/-- Componentwise behaviour of the six wall checks: a component is zeroed
exactly when its node index is in the (one-sided) margin of that axis and
the component points out of the domain; otherwise it is untouched. -/
theorem applyWalls_apply (n : ℤ × ℤ × ℤ) (v : Vec3) (a : Fin 3) :
    applyWalls n v a
      = if (nodeCoord n a < 3 ∧ v a < 0) ∨ ((n_grid : ℤ) - 3 < nodeCoord n a ∧ 0 < v a)
        then 0 else v a := by
  obtain ⟨i, j, k⟩ := n
  fin_cases a
  · show wallHigh k 2 (wallLow k 2 (wallHigh j 1 (wallLow j 1
        (wallHigh i 0 (wallLow i 0 v))))) 0
      = if (i < 3 ∧ v 0 < 0) ∨ ((n_grid : ℤ) - 3 < i ∧ 0 < v 0) then 0 else v 0
    rw [wallHigh_ne _ _ _ (by decide), wallLow_ne _ _ _ (by decide),
      wallHigh_ne _ _ _ (by decide), wallLow_ne _ _ _ (by decide)]
    exact wallPair i 0 v
  · show wallHigh k 2 (wallLow k 2 (wallHigh j 1 (wallLow j 1
        (wallHigh i 0 (wallLow i 0 v))))) 1
      = if (j < 3 ∧ v 1 < 0) ∨ ((n_grid : ℤ) - 3 < j ∧ 0 < v 1) then 0 else v 1
    rw [wallHigh_ne _ _ _ (by decide), wallLow_ne _ _ _ (by decide)]
    rw [wallPair j 1 (wallHigh i 0 (wallLow i 0 v))]
    rw [wallHigh_ne _ _ _ (by decide), wallLow_ne _ _ _ (by decide)]
  · show wallHigh k 2 (wallLow k 2 (wallHigh j 1 (wallLow j 1
        (wallHigh i 0 (wallLow i 0 v))))) 2
      = if (k < 3 ∧ v 2 < 0) ∨ ((n_grid : ℤ) - 3 < k ∧ 0 < v 2) then 0 else v 2
    rw [wallPair k 2 (wallHigh j 1 (wallLow j 1 (wallHigh i 0 (wallLow i 0 v))))]
    rw [wallHigh_ne _ _ _ (by decide), wallLow_ne _ _ _ (by decide),
      wallHigh_ne _ _ _ (by decide), wallLow_ne _ _ _ (by decide)]

/-! ### Positivity and vanishing of contributions -/

theorem p_mass_pos : 0 < p_mass := by
  norm_num [p_mass, p_vol, p_rho, dx, n_grid]

theorem listSum_eq_zero {β M : Type} [AddCommMonoid M] {l : List β} {f : β → M}
    (h : ∀ b ∈ l, f b = 0) : (l.map f).sum = 0 := by
  induction l with
  | nil => rfl
  | cons b l ih =>
    rw [List.map_cons, List.sum_cons, h b (List.mem_cons_self _ _),
      ih (fun c hc => h c (List.mem_cons_of_mem _ hc)), add_zero]

theorem weightP2G_nonneg {x : Vec3} (hfx : ∀ a : Fin 3, 1/2 ≤ fxP2G x a ∧ fxP2G x a < 3/2)
    (o : Fin 3 × Fin 3 × Fin 3) : 0 ≤ weightP2G x o := by
  refine mul_nonneg (mul_nonneg ?_ ?_) ?_ <;>
    exact wP2G_nonneg (hfx _).1 (hfx _).2 _

theorem massContrib_nonneg {p : Particle}
    (hfx : ∀ a : Fin 3, 1/2 ≤ fxP2G p.x a ∧ fxP2G p.x a < 3/2)
    (o : Fin 3 × Fin 3 × Fin 3) : 0 ≤ massContrib p o :=
  mul_nonneg (weightP2G_nonneg hfx o) p_mass_pos.le

theorem weight_eq_zero_of_massContrib {p : Particle} {o : Fin 3 × Fin 3 × Fin 3}
    (h : massContrib p o = 0) : weightP2G p.x o = 0 := by
  rw [massContrib] at h
  exact (mul_eq_zero.mp h).resolve_right p_mass_pos.ne'

/-- For in-range `fx`, a vanishing trilinear weight forces a vanishing
weight gradient. -/
theorem dweightP2G_eq_zero {x : Vec3}
    (hfx : ∀ a : Fin 3, 1/2 ≤ fxP2G x a ∧ fxP2G x a < 3/2)
    {o : Fin 3 × Fin 3 × Fin 3} (hw : weightP2G x o = 0) : dweightP2G x o = 0 := by
  rcases mul_eq_zero.mp hw with h | hC
  · rcases mul_eq_zero.mp h with hA | hB
    · have hdA := dwP2G_eq_zero (hfx 0).1 (hfx 0).2 o.1 hA
      funext b
      fin_cases b <;> simp [dweightP2G, hA, hdA]
    · have hdB := dwP2G_eq_zero (hfx 1).1 (hfx 1).2 o.2.1 hB
      funext b
      fin_cases b <;> simp [dweightP2G, hB, hdB]
  · have hdC := dwP2G_eq_zero (hfx 2).1 (hfx 2).2 o.2.2 hC
    funext b
    fin_cases b <;> simp [dweightP2G, hC, hdC]

/-- For in-range `fx`, a vanishing trilinear weight makes the whole P2G
momentum contribution vanish (force term included). -/
theorem momContrib_eq_zero {svd : Svd} {p : Particle}
    (hfx : ∀ a : Fin 3, 1/2 ≤ fxP2G p.x a ∧ fxP2G p.x a < 3/2)
    {o : Fin 3 × Fin 3 × Fin 3} (hw : weightP2G p.x o = 0) :
    momContrib svd p o = 0 := by
  rw [momContrib, hw, dweightP2G_eq_zero hfx hw]
  simp

/-- **C3.** In the grid-update phase, every node with mass strictly
greater than 0 has its vector first set to momentum divided by mass and
then incremented by `dt·gravity·9.8` (before the wall checks); every node
with zero accumulated mass is left completely unchanged, and — for
particles in the interpolation range — its value is the reset zero. -/
theorem C3_grid_update (grav : Vec3) (n : ℤ × ℤ × ℤ) :
    (∀ (m : ℚ) (mom : Vec3), 0 < m →
      updateNode n m mom grav = applyWalls n ((1 / m) • mom + (dt * (49/5)) • grav))
    ∧ (∀ (m : ℚ) (mom : Vec3), m = 0 → updateNode n m mom grav = mom)
    ∧ (∀ (svd : Svd) (ps : List Particle),
        (∀ p ∈ ps, ∀ a : Fin 3, 1/2 ≤ p.x a * inv_dx) →
        (p2g svd ps).m n = 0 →
        (gridOp grav (p2g svd ps)).v n = 0) := by
  refine ⟨fun m mom hm => by rw [updateNode, if_pos hm],
    fun m mom hm => by rw [updateNode, if_neg (by rw [hm]; exact lt_irrefl 0)], ?_⟩
  intro svd ps hpos hm0
  have hfx : ∀ p ∈ ps, ∀ a : Fin 3, 1/2 ≤ fxP2G p.x a ∧ fxP2G p.x a < 3/2 :=
    fun p hp a => fxP2G_bounds (hpos p hp a)
  have hmass : ∀ p ∈ ps,
      (nbhd.map fun o => if nodeOf p.x o = n then massContrib p o else 0).sum = 0 := by
    rw [p2g_m] at hm0
    intro p hp
    have houter : ∀ q ∈ ps,
        0 ≤ (nbhd.map fun o => if nodeOf q.x o = n then massContrib q o else 0).sum := by
      intro q hq
      apply listSum_nonneg
      intro o ho
      by_cases hcond : nodeOf q.x o = n
      · rw [if_pos hcond]; exact massContrib_nonneg (hfx q hq) o
      · rw [if_neg hcond]
    have hle := single_le_listSum houter hp
    rw [hm0] at hle
    exact le_antisymm hle (houter p hp)
  have hterm : ∀ p ∈ ps, ∀ o ∈ nbhd,
      (if nodeOf p.x o = n then massContrib p o else 0) = 0 := by
    intro p hp o ho
    have hnn : ∀ o2 ∈ nbhd, 0 ≤ (if nodeOf p.x o2 = n then massContrib p o2 else 0) := by
      intro o2 _
      by_cases hcond : nodeOf p.x o2 = n
      · rw [if_pos hcond]; exact massContrib_nonneg (hfx p hp) o2
      · rw [if_neg hcond]
    have hle := single_le_listSum hnn ho
    rw [hmass p hp] at hle
    exact le_antisymm hle (hnn o ho)
  show updateNode n ((p2g svd ps).m n) ((p2g svd ps).v n) grav = 0
  rw [updateNode, if_neg (by rw [hm0]; exact lt_irrefl 0), p2g_v]
  apply listSum_eq_zero
  intro p hp
  apply listSum_eq_zero
  intro o ho
  by_cases hcond : nodeOf p.x o = n
  · rw [if_pos hcond]
    have h0 := hterm p hp o ho
    rw [if_pos hcond] at h0
    exact momContrib_eq_zero (hfx p hp) (weight_eq_zero_of_massContrib h0)
  · rw [if_neg hcond]

/-- Witness for C3 at a concrete positive-mass node. -/
theorem C3_witness :
    (0:ℚ) < 1 ∧ updateNode (64, 64, 64) 1 ![1, 2, 3] ![0, 0, 1]
      = applyWalls (64, 64, 64) ((1 / (1:ℚ)) • ![1, 2, 3] + (dt * (49/5)) • ![0, 0, 1]) :=
  ⟨by norm_num, (C3_grid_update ![0, 0, 1] (64, 64, 64)).1 1 ![1, 2, 3] (by norm_num)⟩

/-- **C4 counterexample.** The wall margins are not the same at the low
and the high face: node index 2 (third layer from the low face) has its
outward velocity zeroed, while its mirror node index 125 = n_grid − 3
(third layer from the high face) keeps its outward velocity unchanged. -/
theorem C4_counterexample :
    updateNode (2, 64, 64) 1 ![-1, 0, 0] 0 0 = 0
    ∧ updateNode (125, 64, 64) 1 ![1, 0, 0] 0 0 = 1 := by
  have hu1 : (1/(1:ℚ)) • (![-1, 0, 0] : Vec3) + (dt * (49/5)) • (0 : Vec3)
      = (![-1, 0, 0] : Vec3) := by
    funext b
    fin_cases b <;> norm_num
  have hu2 : (1/(1:ℚ)) • (![1, 0, 0] : Vec3) + (dt * (49/5)) • (0 : Vec3)
      = (![1, 0, 0] : Vec3) := by
    funext b
    fin_cases b <;> norm_num
  constructor
  · rw [updateNode, if_pos one_pos, hu1, applyWalls_apply]
    norm_num [nodeCoord]
  · rw [updateNode, if_pos one_pos, hu2, applyWalls_apply]
    norm_num [nodeCoord, n_grid]

/-- **C4 (amended).** In the grid-update phase, for every positive-mass
node, the stored component on axis `a` is zeroed exactly when the node
index on that axis is in the wall margin of that face and the
gravity-updated component points out of the domain; the low-face margin is
3 node layers (indices < 3) while the high-face margin is 2 node layers
(indices > n_grid − 3); all other components are left unmodified. -/
theorem C4_wall_margins (n : ℤ × ℤ × ℤ) (m : ℚ) (mom grav : Vec3) (hm : 0 < m)
    (a : Fin 3) :
    updateNode n m mom grav a
      = if (nodeCoord n a < 3 ∧ ((1/m) • mom + (dt * (49/5)) • grav) a < 0)
          ∨ ((n_grid : ℤ) - 3 < nodeCoord n a
              ∧ 0 < ((1/m) • mom + (dt * (49/5)) • grav) a)
        then 0
        else ((1/m) • mom + (dt * (49/5)) • grav) a := by
  rw [updateNode, if_pos hm]
  exact applyWalls_apply n _ a

/-- **C6 counterexample.** At the origin, the base index computed by the
code (Taichi float-to-int cast, truncation toward zero) is 0, whereas the
claimed `floor(position·inv_dx − 0.5)` is −1. -/
theorem C6_counterexample :
    baseP2G (fun _ => 0) 0 = 0 ∧ ⌊(0:ℚ) * inv_dx - 1/2⌋ = -1 := by
  constructor
  · show castInt ((0:ℚ) * inv_dx - 1/2) = 0
    rw [castInt, if_neg (by norm_num [inv_dx, n_grid])]
    norm_num [inv_dx, n_grid]
  · norm_num [inv_dx, n_grid]

/-- **C6 (amended).** P2G and G2P compute identical `base`, `fx`, weights
and weight gradients for the same particle position; the base index is the
truncation toward zero of `position·inv_dx − 0.5`, which agrees with the
claimed floor whenever every coordinate satisfies
`position·inv_dx ≥ 0.5`. -/
theorem C6_base_fx_weights :
    (∀ x : Vec3, baseG2P x = baseP2G x ∧ fxG2P x = fxP2G x
      ∧ wG2P (fxG2P x) = wP2G (fxP2G x) ∧ dwG2P (fxG2P x) = dwP2G (fxP2G x)
      ∧ ∀ a : Fin 3, fxP2G x a = x a * inv_dx - (baseP2G x a : ℚ))
    ∧ (∀ (x : Vec3) (a : Fin 3), 1/2 ≤ x a * inv_dx →
        baseP2G x a = ⌊x a * inv_dx - 1/2⌋) :=
  ⟨fun _ => ⟨rfl, rfl, rfl, rfl, fun _ => rfl⟩,
   fun _ _ h => castInt_of_nonneg (by linarith)⟩

/-- Witness for C6 at a concrete in-range position. -/
theorem C6_witness :
    (1/2 : ℚ) ≤ (1/2) * inv_dx
    ∧ baseP2G (fun _ => (1/2 : ℚ)) 0 = ⌊(1/2 : ℚ) * inv_dx - 1/2⌋ :=
  ⟨by norm_num [inv_dx, n_grid],
   C6_base_fx_weights.2 (fun _ => (1/2 : ℚ)) 0 (by norm_num [inv_dx, n_grid])⟩

/-! ### Bounds analysis for the truncating cast -/

theorem castInt_nonneg_iff (q : ℚ) : 0 ≤ castInt q ↔ -1 < q := by
  rw [castInt]
  by_cases h : 0 ≤ q
  · rw [if_pos h]
    constructor
    · intro _; linarith
    · intro _; exact Int.le_floor.mpr (by exact_mod_cast h)
  · rw [if_neg h]
    have h1 : (0 ≤ ⌈q⌉) ↔ (-1 < ⌈q⌉) := by omega
    rw [h1, Int.lt_ceil]
    norm_num

theorem castInt_upper_iff (q : ℚ) :
    castInt q + 2 ≤ (n_grid : ℤ) - 1 ↔ q < 126 := by
  have hn : (n_grid : ℤ) = 128 := rfl
  rw [castInt, hn]
  by_cases h : 0 ≤ q
  · rw [if_pos h]
    have h2 : (⌊q⌋ + 2 ≤ 128 - 1) ↔ ⌊q⌋ < 126 := by omega
    rw [h2, Int.floor_lt]
    norm_num
  · rw [if_neg h]
    have h2 : ⌈q⌉ ≤ 0 := Int.ceil_le.mpr (by push_cast; linarith)
    constructor
    · intro _; linarith
    · intro _; omega

theorem baseP2G_bounds_iff (x : Vec3) (a : Fin 3) :
    (0 ≤ baseP2G x a ∧ baseP2G x a + 2 ≤ (n_grid : ℤ) - 1)
      ↔ (-(1/2) * dx < x a ∧ x a < ((n_grid : ℚ) - 3/2) * dx) := by
  rw [show baseP2G x a = castInt (x a * inv_dx - 1/2) from rfl,
    castInt_nonneg_iff, castInt_upper_iff]
  have hi : inv_dx = 128 := by norm_num [inv_dx, n_grid]
  have hd : dx = 1/128 := by norm_num [dx, n_grid]
  have hg : (n_grid : ℚ) = 128 := by norm_num [n_grid]
  rw [hi, hd, hg]
  constructor <;> rintro ⟨h1, h2⟩ <;> constructor <;> linarith

/-- **C10 counterexample.** At the origin, every one of the 27 grid
accesses of P2G and G2P is in bounds (the truncating cast sends the base
index to 0, not −1), yet the origin violates the claimed lower bound
`0.5·dx ≤ coordinate`; so the claimed interval is not equivalent to
in-bounds access. -/
theorem C10_counterexample :
    (∀ o ∈ nbhd, accessInBounds (nodeOf (fun _ => 0) o))
    ∧ ¬ ((1/2 : ℚ) * dx ≤ 0) := by
  constructor
  · have hb : ∀ a : Fin 3, baseP2G (fun _ => (0:ℚ)) a = 0 := by
      intro a
      show castInt ((0:ℚ) * inv_dx - 1/2) = 0
      rw [castInt, if_neg (by norm_num [inv_dx, n_grid])]
      norm_num [inv_dx, n_grid]
    rintro ⟨i, j, k⟩ _
    have hi : ((i : ℕ) : ℤ) < 3 := by exact_mod_cast i.isLt
    have hj : ((j : ℕ) : ℤ) < 3 := by exact_mod_cast j.isLt
    have hk : ((k : ℕ) : ℤ) < 3 := by exact_mod_cast k.isLt
    have hi0 : (0:ℤ) ≤ ((i : ℕ) : ℤ) := Int.natCast_nonneg _
    have hj0 : (0:ℤ) ≤ ((j : ℕ) : ℤ) := Int.natCast_nonneg _
    have hk0 : (0:ℤ) ≤ ((k : ℕ) : ℤ) := Int.natCast_nonneg _
    have hn : (n_grid : ℤ) = 128 := rfl
    refine ⟨⟨?_, ?_⟩, ⟨?_, ?_⟩, ?_, ?_⟩ <;>
      simp only [nodeOf, hb] <;> omega
  · norm_num [dx, n_grid]

/-- All 27 accesses of the P2G scatter are in bounds iff the per-axis base
index window fits in the grid. -/
theorem allAccesses_iff (x : Vec3) :
    (∀ o ∈ nbhd, accessInBounds (nodeOf x o))
      ↔ ∀ a : Fin 3, 0 ≤ baseP2G x a ∧ baseP2G x a + 2 ≤ (n_grid : ℤ) - 1 := by
  have hn : (n_grid : ℤ) = 128 := rfl
  constructor
  · intro h a
    have h0 : (0 ≤ baseP2G x 0 + 0 ∧ baseP2G x 0 + 0 ≤ (n_grid:ℤ) - 1)
        ∧ (0 ≤ baseP2G x 1 + 0 ∧ baseP2G x 1 + 0 ≤ (n_grid:ℤ) - 1)
        ∧ (0 ≤ baseP2G x 2 + 0 ∧ baseP2G x 2 + 0 ≤ (n_grid:ℤ) - 1) :=
      h (0,0,0) (by decide)
    have h2 : (0 ≤ baseP2G x 0 + 2 ∧ baseP2G x 0 + 2 ≤ (n_grid:ℤ) - 1)
        ∧ (0 ≤ baseP2G x 1 + 2 ∧ baseP2G x 1 + 2 ≤ (n_grid:ℤ) - 1)
        ∧ (0 ≤ baseP2G x 2 + 2 ∧ baseP2G x 2 + 2 ≤ (n_grid:ℤ) - 1) :=
      h (2,2,2) (by decide)
    rcases a with ⟨av, hav⟩
    interval_cases av
    · show 0 ≤ baseP2G x 0 ∧ baseP2G x 0 + 2 ≤ (n_grid : ℤ) - 1
      exact ⟨by have := h0.1.1; omega, by have := h2.1.2; omega⟩
    · show 0 ≤ baseP2G x 1 ∧ baseP2G x 1 + 2 ≤ (n_grid : ℤ) - 1
      exact ⟨by have := h0.2.1.1; omega, by have := h2.2.1.2; omega⟩
    · show 0 ≤ baseP2G x 2 ∧ baseP2G x 2 + 2 ≤ (n_grid : ℤ) - 1
      exact ⟨by have := h0.2.2.1; omega, by have := h2.2.2.2; omega⟩
  · rintro h ⟨i, j, k⟩ _
    have hi : ((i : ℕ) : ℤ) < 3 := by exact_mod_cast i.isLt
    have hj : ((j : ℕ) : ℤ) < 3 := by exact_mod_cast j.isLt
    have hk : ((k : ℕ) : ℤ) < 3 := by exact_mod_cast k.isLt
    have hi0 : (0:ℤ) ≤ ((i : ℕ) : ℤ) := Int.natCast_nonneg _
    have hj0 : (0:ℤ) ≤ ((j : ℕ) : ℤ) := Int.natCast_nonneg _
    have hk0 : (0:ℤ) ≤ ((k : ℕ) : ℤ) := Int.natCast_nonneg _
    have e0 := h 0
    have e1 := h 1
    have e2 := h 2
    refine ⟨⟨?_, ?_⟩, ⟨?_, ?_⟩, ?_, ?_⟩ <;> simp only [nodeOf] <;> omega

/-- **C10 (amended).** All 27 grid accesses of P2G and of G2P are in
bounds on every axis iff every coordinate `c` of the particle position
satisfies `−0.5·dx < c < (n_grid − 1.5)·dx` (the lower end differs from
the claimed `0.5·dx ≤ c` because the cast truncates toward zero instead of
flooring). -/
theorem C10_access_bounds (x : Vec3) :
    ((∀ o ∈ nbhd, accessInBounds (nodeOf x o))
      ∧ (∀ o ∈ nbhd, accessInBounds (nodeOfG2P x o)))
      ↔ ∀ a : Fin 3, -(1/2) * dx < x a ∧ x a < ((n_grid : ℚ) - 3/2) * dx := by
  have hsame : ∀ o ∈ nbhd, nodeOfG2P x o = nodeOf x o := fun o _ => rfl
  constructor
  · intro h a
    exact (baseP2G_bounds_iff x a).mp ((allAccesses_iff x).mp h.1 a)
  · intro h
    have hb : ∀ o ∈ nbhd, accessInBounds (nodeOf x o) :=
      (allAccesses_iff x).mpr fun a => (baseP2G_bounds_iff x a).mpr (h a)
    exact ⟨hb, fun o ho => hsame o ho ▸ hb o ho⟩

/-- Witness for C4 at a concrete low-margin node. -/
theorem C4_witness :
    (0:ℚ) < 1 ∧ updateNode (2, 64, 64) 1 ![-1, 0, 0] 0 0
      = if (((2:ℤ) < 3 ∧ ((1/(1:ℚ)) • (![-1, 0, 0] : Vec3) + (dt * (49/5)) • (0:Vec3)) 0 < 0)
          ∨ ((n_grid : ℤ) - 3 < 2
              ∧ 0 < ((1/(1:ℚ)) • (![-1, 0, 0] : Vec3) + (dt * (49/5)) • (0:Vec3)) 0))
        then 0
        else ((1/(1:ℚ)) • (![-1, 0, 0] : Vec3) + (dt * (49/5)) • (0:Vec3)) 0 :=
  ⟨by norm_num, C4_wall_margins (2, 64, 64) 1 ![-1, 0, 0] 0 (by norm_num) 0⟩

/-! ### Mass conservation -/

theorem listSum_congr {β M : Type} [AddCommMonoid M] {l : List β} {f g : β → M}
    (h : ∀ b ∈ l, f b = g b) : (l.map f).sum = (l.map g).sum := by
  induction l with
  | nil => rfl
  | cons b l ih =>
    rw [List.map_cons, List.map_cons, List.sum_cons, List.sum_cons,
      h b (List.mem_cons_self _ _), ih fun c hc => h c (List.mem_cons_of_mem _ hc)]

theorem listSum_mul_right {β : Type} (l : List β) (f : β → ℚ) (c : ℚ) :
    (l.map fun o => f o * c).sum = (l.map f).sum * c := by
  induction l with
  | nil => simp
  | cons b l ih => simp [ih]; ring

theorem listSum_length_mul {β : Type} (l : List β) (c : ℚ) :
    (l.map fun _ => c).sum = l.length * c := by
  induction l with
  | nil => simp
  | cons b l ih =>
    rw [List.map_cons, List.sum_cons, ih, List.length_cons]
    push_cast
    ring

theorem mem_gridNodes {n : ℤ × ℤ × ℤ} : n ∈ gridNodes ↔ accessInBounds n := by
  rcases n with ⟨i, j, k⟩
  simp [gridNodes, accessInBounds, Finset.mem_Icc, Finset.mem_product]

/-- **C7.** After P2G, the total grid mass equals `n_particles · p_mass`
exactly, for every particle configuration whose full 3×3×3 interpolation
neighbourhood lies inside the grid; the per-axis quadratic B-spline
weights sum to 1 for any `fx`. -/
theorem C7_mass_conservation (svd : Svd) (ps : List Particle)
    (h : ∀ p ∈ ps, ∀ a : Fin 3, 0 ≤ baseP2G p.x a ∧ baseP2G p.x a + 2 ≤ (n_grid:ℤ) - 1) :
    totalGridMass (p2g svd ps) = ps.length * p_mass := by
  rw [totalGridMass]
  have e1 : ∑ n ∈ gridNodes, (p2g svd ps).m n
      = ∑ n ∈ gridNodes, (ps.map fun p =>
          (nbhd.map fun o => if nodeOf p.x o = n then massContrib p o else 0).sum).sum :=
    Finset.sum_congr rfl fun n _ => p2g_m svd ps n
  rw [e1, finsetSum_listSum]
  have e2 : ∀ p ∈ ps, (∑ n ∈ gridNodes,
      (nbhd.map fun o => if nodeOf p.x o = n then massContrib p o else 0).sum) = p_mass := by
    intro p hp
    rw [finsetSum_listSum]
    have e3 : ∀ o ∈ nbhd,
        (∑ n ∈ gridNodes, if nodeOf p.x o = n then massContrib p o else 0)
          = massContrib p o := by
      intro o _
      rw [Finset.sum_ite_eq gridNodes (nodeOf p.x o) (fun _ => massContrib p o)]
      rw [if_pos]
      rw [mem_gridNodes]
      obtain ⟨i, j, k⟩ := o
      have hi : ((i : ℕ) : ℤ) < 3 := by exact_mod_cast i.isLt
      have hj : ((j : ℕ) : ℤ) < 3 := by exact_mod_cast j.isLt
      have hk : ((k : ℕ) : ℤ) < 3 := by exact_mod_cast k.isLt
      have hi0 : (0:ℤ) ≤ ((i : ℕ) : ℤ) := Int.natCast_nonneg _
      have hj0 : (0:ℤ) ≤ ((j : ℕ) : ℤ) := Int.natCast_nonneg _
      have hk0 : (0:ℤ) ≤ ((k : ℕ) : ℤ) := Int.natCast_nonneg _
      have h0 := h p hp 0
      have h1 := h p hp 1
      have h2 := h p hp 2
      refine ⟨⟨?_, ?_⟩, ⟨?_, ?_⟩, ?_, ?_⟩ <;> simp only [nodeOf] <;> omega
    rw [listSum_congr e3]
    rw [show (nbhd.map fun o => massContrib p o)
        = nbhd.map fun o => weightP2G p.x o * p_mass from rfl]
    rw [listSum_mul_right, weightP2G_total, one_mul]
  rw [listSum_congr e2, listSum_length_mul]

/-- Witness for C7: a single interior particle. -/
theorem C7_witness :
    (∀ p ∈ [pHalf], ∀ a : Fin 3, 0 ≤ baseP2G p.x a ∧ baseP2G p.x a + 2 ≤ (n_grid:ℤ) - 1)
    ∧ totalGridMass (p2g svdId [pHalf]) = ([pHalf].length : ℚ) * p_mass := by
  have hb : ∀ p ∈ [pHalf], ∀ a : Fin 3,
      0 ≤ baseP2G p.x a ∧ baseP2G p.x a + 2 ≤ (n_grid:ℤ) - 1 := by
    intro p hp a
    rcases List.mem_singleton.mp hp with rfl
    show 0 ≤ castInt ((1/2:ℚ) * inv_dx - 1/2)
      ∧ castInt ((1/2:ℚ) * inv_dx - 1/2) + 2 ≤ (n_grid:ℤ) - 1
    rw [castInt, if_pos (by norm_num [inv_dx, n_grid])]
    norm_num [inv_dx, n_grid]
  exact ⟨hb, C7_mass_conservation svdId [pHalf] hb⟩

/-! ### The plastic scalar is inert -/

theorem listMap_congr {β γ : Type} {l : List β} {f g : β → γ}
    (h : ∀ b ∈ l, f b = g b) : l.map f = l.map g := by
  induction l with
  | nil => rfl
  | cons b l ih =>
    rw [List.map_cons, List.map_cons, h b (List.mem_cons_self _ _),
      ih fun c hc => h c (List.mem_cons_of_mem _ hc)]

theorem stressOf_congr {svd : Svd} {p q : Particle} (h : p.F = q.F) :
    stressOf svd p = stressOf svd q := by
  rw [show stressOf svd p = kirchoff_FCR p.F ((svd p.F).1 * ((svd p.F).2.2).transpose)
      (jLoop (svd p.F).2.1 p.Jp).1 mu_0 lambda_0 from rfl,
    show stressOf svd q = kirchoff_FCR q.F ((svd q.F).1 * ((svd q.F).2.2).transpose)
      (jLoop (svd q.F).2.1 q.Jp).1 mu_0 lambda_0 from rfl,
    jLoop_fst, jLoop_fst, h]

theorem p2gParticle_congr {svd : Svd} {p q : Particle} (h : nonJp p = nonJp q) (g : Grid) :
    p2gParticle svd g p = p2gParticle svd g q := by
  simp only [nonJp, Prod.mk.injEq] at h
  obtain ⟨hx, hv, hC, hF⟩ := h
  have hmom : momContrib svd p = momContrib svd q := by
    funext o
    rw [momContrib, momContrib, hx, hv, hC, stressOf_congr hF]
  have hmassc : massContrib p = massContrib q := by
    funext o
    rw [massContrib, massContrib, hx]
  show Grid.mk (scatterAcc (nodeOf p.x) (momContrib svd p) nbhd g.v)
      (scatterAcc (nodeOf p.x) (massContrib p) nbhd g.m) = _
  rw [hx, hmom, hmassc]
  rfl

theorem p2g_congr {svd : Svd} : ∀ {l1 l2 : List Particle},
    l1.map nonJp = l2.map nonJp →
    ∀ g : Grid, l1.foldl (p2gParticle svd) g = l2.foldl (p2gParticle svd) g := by
  intro l1
  induction l1 with
  | nil =>
    intro l2 h g
    have h2 : l2 = [] := by
      have h3 := h.symm
      rw [List.map_nil] at h3
      exact List.map_eq_nil_iff.mp h3
    rw [h2]
  | cons p t1 ih =>
    intro l2 h g
    rcases l2 with _ | ⟨q, t2⟩
    · exact absurd h (by simp)
    · rw [List.map_cons, List.map_cons, List.cons.injEq] at h
      rw [List.foldl_cons, List.foldl_cons, p2gParticle_congr h.1 g]
      exact ih h.2 _

theorem g2pParticle_nonJp_congr {G : Grid} {p q : Particle} (h : nonJp p = nonJp q) :
    nonJp (g2pParticle G p) = nonJp (g2pParticle G q) := by
  simp only [nonJp, Prod.mk.injEq] at h
  obtain ⟨hx, _, _, hF⟩ := h
  show (p.x + dt • g2pNewV G p.x, g2pNewV G p.x, g2pNewC G p.x,
      ((1 : Mat3) + dt • g2pNewF G p.x) * p.F) = _
  rw [hx, hF]
  rfl

theorem map_nonJp_g2p {G : Grid} {svd : Svd} : ∀ {l1 l2 : List Particle},
    l1.map nonJp = l2.map nonJp →
    (l1.map fun p => nonJp (g2pParticle G (p2gJp svd p)))
      = l2.map fun p => nonJp (g2pParticle G (p2gJp svd p)) := by
  intro l1
  induction l1 with
  | nil =>
    intro l2 h
    have h2 : l2 = [] := by
      have h3 := h.symm
      rw [List.map_nil] at h3
      exact List.map_eq_nil_iff.mp h3
    rw [h2]
  | cons p t1 ih =>
    intro l2 h
    rcases l2 with _ | ⟨q, t2⟩
    · exact absurd h (by simp)
    · rw [List.map_cons, List.map_cons, List.cons.injEq] at h
      have hJ : nonJp (p2gJp svd p) = nonJp (p2gJp svd q) := h.1
      rw [List.map_cons, List.map_cons, g2pParticle_nonJp_congr hJ, ih h.2]

/-- **C9.** For deformation gradients whose SVD has all nonzero diagonal
`sig` entries, `substep` leaves the plastic scalar `Jp` of every particle
unchanged (the loop multiplies `Jp` by `sig/new_sig` with
`new_sig = sig`), and the value of `Jp` has no effect on any other state
updated by `substep`. -/
theorem C9_Jp_inert (svd : Svd) (grav : Vec3) (ps : List Particle) :
    ((∀ p ∈ ps, ∀ d : Fin 3, (svd p.F).2.1 d d ≠ 0) →
      (substep svd grav ps).map (fun p => p.Jp) = ps.map (fun p => p.Jp))
    ∧ (∀ ps2 : List Particle, ps2.map nonJp = ps.map nonJp →
        (substep svd grav ps2).map nonJp = (substep svd grav ps).map nonJp) := by
  constructor
  · intro h
    show (ps.map fun p =>
        g2pParticle (gridOp grav (p2g svd ps)) (p2gJp svd p)).map (fun p => p.Jp) = _
    rw [List.map_map]
    apply listMap_congr
    intro p hp
    show (jLoop (svd p.F).2.1 p.Jp).2 = p.Jp
    exact jLoop_snd _ _ (h p hp 0) (h p hp 1) (h p hp 2)
  · intro ps2 h
    have hg : p2g svd ps2 = p2g svd ps := p2g_congr h gridReset
    show (ps2.map fun p =>
        g2pParticle (gridOp grav (p2g svd ps2)) (p2gJp svd p)).map nonJp
      = (ps.map fun p =>
        g2pParticle (gridOp grav (p2g svd ps)) (p2gJp svd p)).map nonJp
    rw [hg, List.map_map, List.map_map]
    exact map_nonJp_g2p h

/-- Witness for C9 with the identity SVD oracle. -/
theorem C9_witness :
    (∀ p ∈ [pHalf], ∀ d : Fin 3, (svdId p.F).2.1 d d ≠ 0)
    ∧ (substep svdId 0 [pHalf]).map (fun p => p.Jp) = [pHalf].map (fun p => p.Jp) := by
  have h : ∀ p ∈ [pHalf], ∀ d : Fin 3, (svdId p.F).2.1 d d ≠ 0 := by
    intro p _ d
    show (1 : Mat3) d d ≠ 0
    rw [Matrix.one_apply_eq]
    exact one_ne_zero
  exact ⟨h, (C9_Jp_inert svdId 0 [pHalf]).1 h⟩

/-! ### Rigid translation invariance -/

theorem stress_at_identity {svd : Svd} (hsig : (svd 1).2.1 = 1)
    (hUV : (svd 1).1 * ((svd 1).2.2).transpose = 1)
    {p : Particle} (hFp : p.F = 1) : stressOf svd p = 0 := by
  rw [show stressOf svd p = kirchoff_FCR p.F ((svd p.F).1 * ((svd p.F).2.2).transpose)
      (jLoop (svd p.F).2.1 p.Jp).1 mu_0 lambda_0 from rfl, hFp, jLoop_fst, hsig, hUV]
  rw [kirchoff_FCR]
  simp [Matrix.one_apply_eq]

theorem momContrib_translation {svd : Svd} {p : Particle} {v0 : Vec3}
    (hst : stressOf svd p = 0) (hvp : p.v = v0) (hCp : p.C = 0)
    (o : Fin 3 × Fin 3 × Fin 3) :
    momContrib svd p o = massContrib p o • v0 := by
  rw [momContrib, hst, hvp, hCp, massContrib]
  simp [mul_comm]

theorem p2g_momentum_translation {svd : Svd} {ps : List Particle} {v0 : Vec3}
    (hall : ∀ p ∈ ps, ∀ o : Fin 3 × Fin 3 × Fin 3,
      momContrib svd p o = massContrib p o • v0) (n : ℤ × ℤ × ℤ) :
    (p2g svd ps).v n = (p2g svd ps).m n • v0 := by
  rw [p2g_v, p2g_m, ← listSum_smul_const]
  apply listSum_congr
  intro p hp
  rw [← listSum_smul_const]
  apply listSum_congr
  intro o _
  by_cases hcond : nodeOf p.x o = n
  · rw [if_pos hcond, if_pos hcond, hall p hp o]
  · rw [if_neg hcond, if_neg hcond, zero_smul]

theorem p2g_m_nonneg {svd : Svd} {ps : List Particle}
    (hfx : ∀ p ∈ ps, ∀ a : Fin 3, 1/2 ≤ fxP2G p.x a ∧ fxP2G p.x a < 3/2)
    (n : ℤ × ℤ × ℤ) : 0 ≤ (p2g svd ps).m n := by
  rw [p2g_m]
  apply listSum_nonneg
  intro p hp
  apply listSum_nonneg
  intro o _
  by_cases hcond : nodeOf p.x o = n
  · rw [if_pos hcond]; exact massContrib_nonneg (hfx p hp) o
  · rw [if_neg hcond]

theorem massContrib_le_gridMass {svd : Svd} {ps : List Particle}
    (hfx : ∀ p ∈ ps, ∀ a : Fin 3, 1/2 ≤ fxP2G p.x a ∧ fxP2G p.x a < 3/2)
    {p : Particle} (hp : p ∈ ps) {o : Fin 3 × Fin 3 × Fin 3} (ho : o ∈ nbhd) :
    massContrib p o ≤ (p2g svd ps).m (nodeOf p.x o) := by
  rw [p2g_m]
  have hterm : ∀ o2 ∈ nbhd,
      0 ≤ (if nodeOf p.x o2 = nodeOf p.x o then massContrib p o2 else 0) := by
    intro o2 _
    by_cases hcond : nodeOf p.x o2 = nodeOf p.x o
    · rw [if_pos hcond]; exact massContrib_nonneg (hfx p hp) o2
    · rw [if_neg hcond]
  have h1 : (if nodeOf p.x o = nodeOf p.x o then massContrib p o else 0)
      ≤ (nbhd.map fun o2 =>
          if nodeOf p.x o2 = nodeOf p.x o then massContrib p o2 else 0).sum :=
    single_le_listSum hterm ho
  rw [if_pos rfl] at h1
  have houter : ∀ q ∈ ps, 0 ≤ (nbhd.map fun o2 =>
      if nodeOf q.x o2 = nodeOf p.x o then massContrib q o2 else 0).sum := by
    intro q hq
    apply listSum_nonneg
    intro o2 _
    by_cases hcond : nodeOf q.x o2 = nodeOf p.x o
    · rw [if_pos hcond]; exact massContrib_nonneg (hfx q hq) o2
    · rw [if_neg hcond]
  have h2 := single_le_listSum houter hp
  linarith

theorem nodeCoord_margin {n : ℤ × ℤ × ℤ}
    (h1 : 3 ≤ n.1 ∧ n.1 ≤ (n_grid:ℤ) - 3)
    (h2 : 3 ≤ n.2.1 ∧ n.2.1 ≤ (n_grid:ℤ) - 3)
    (h3 : 3 ≤ n.2.2 ∧ n.2.2 ≤ (n_grid:ℤ) - 3) (a : Fin 3) :
    3 ≤ nodeCoord n a ∧ nodeCoord n a ≤ (n_grid:ℤ) - 3 := by
  rcases a with ⟨av, hav⟩
  interval_cases av
  · exact h1
  · exact h2
  · exact h3

theorem applyWalls_interior {n : ℤ × ℤ × ℤ}
    (h1 : 3 ≤ n.1 ∧ n.1 ≤ (n_grid:ℤ) - 3)
    (h2 : 3 ≤ n.2.1 ∧ n.2.1 ≤ (n_grid:ℤ) - 3)
    (h3 : 3 ≤ n.2.2 ∧ n.2.2 ≤ (n_grid:ℤ) - 3) (v : Vec3) :
    applyWalls n v = v := by
  funext a
  rw [applyWalls_apply, if_neg]
  have hb := nodeCoord_margin h1 h2 h3 a
  rintro (⟨hlt, _⟩ | ⟨hgt, _⟩) <;> omega

theorem gridV_translation {svd : Svd} {ps : List Particle} {v0 : Vec3}
    (hfx : ∀ p ∈ ps, ∀ a : Fin 3, 1/2 ≤ fxP2G p.x a ∧ fxP2G p.x a < 3/2)
    (hmom : ∀ n, (p2g svd ps).v n = (p2g svd ps).m n • v0)
    {p : Particle} (hp : p ∈ ps)
    (hmargin : ∀ a : Fin 3, 3 ≤ baseP2G p.x a ∧ baseP2G p.x a + 2 ≤ (n_grid:ℤ) - 3)
    {o : Fin 3 × Fin 3 × Fin 3} (ho : o ∈ nbhd) :
    weightP2G p.x o • (gridOp (0:Vec3) (p2g svd ps)).v (nodeOf p.x o)
      = weightP2G p.x o • v0 := by
  show weightP2G p.x o
      • updateNode (nodeOf p.x o) ((p2g svd ps).m (nodeOf p.x o))
          ((p2g svd ps).v (nodeOf p.x o)) 0 = _
  by_cases hm : 0 < (p2g svd ps).m (nodeOf p.x o)
  · have hio : ((o.1 : ℕ) : ℤ) < 3 := by exact_mod_cast o.1.isLt
    have hjo : ((o.2.1 : ℕ) : ℤ) < 3 := by exact_mod_cast o.2.1.isLt
    have hko : ((o.2.2 : ℕ) : ℤ) < 3 := by exact_mod_cast o.2.2.isLt
    have hio0 : (0:ℤ) ≤ ((o.1 : ℕ) : ℤ) := Int.natCast_nonneg _
    have hjo0 : (0:ℤ) ≤ ((o.2.1 : ℕ) : ℤ) := Int.natCast_nonneg _
    have hko0 : (0:ℤ) ≤ ((o.2.2 : ℕ) : ℤ) := Int.natCast_nonneg _
    have hb0 := hmargin 0
    have hb1 := hmargin 1
    have hb2 := hmargin 2
    have h1 : 3 ≤ (nodeOf p.x o).1 ∧ (nodeOf p.x o).1 ≤ (n_grid:ℤ) - 3 := by
      show 3 ≤ baseP2G p.x 0 + ((o.1 : ℕ) : ℤ)
        ∧ baseP2G p.x 0 + ((o.1 : ℕ) : ℤ) ≤ (n_grid:ℤ) - 3
      omega
    have h2 : 3 ≤ (nodeOf p.x o).2.1 ∧ (nodeOf p.x o).2.1 ≤ (n_grid:ℤ) - 3 := by
      show 3 ≤ baseP2G p.x 1 + ((o.2.1 : ℕ) : ℤ)
        ∧ baseP2G p.x 1 + ((o.2.1 : ℕ) : ℤ) ≤ (n_grid:ℤ) - 3
      omega
    have h3 : 3 ≤ (nodeOf p.x o).2.2 ∧ (nodeOf p.x o).2.2 ≤ (n_grid:ℤ) - 3 := by
      show 3 ≤ baseP2G p.x 2 + ((o.2.2 : ℕ) : ℤ)
        ∧ baseP2G p.x 2 + ((o.2.2 : ℕ) : ℤ) ≤ (n_grid:ℤ) - 3
      omega
    rw [updateNode, if_pos hm, hmom]
    rw [smul_smul, smul_zero, add_zero, one_div_mul_cancel hm.ne', one_smul]
    rw [applyWalls_interior h1 h2 h3]
  · have hm0 : (p2g svd ps).m (nodeOf p.x o) = 0 :=
      le_antisymm (not_lt.mp hm) (p2g_m_nonneg hfx _)
    have hle := @massContrib_le_gridMass svd ps hfx p hp o ho
    have hw0 : weightP2G p.x o = 0 := by
      apply weight_eq_zero_of_massContrib
      rw [hm0] at hle
      exact le_antisymm hle (massContrib_nonneg (hfx p hp) o)
    rw [hw0, zero_smul, zero_smul]

theorem g2pNewV_translation {svd : Svd} {ps : List Particle} {v0 : Vec3}
    (hfx : ∀ p ∈ ps, ∀ a : Fin 3, 1/2 ≤ fxP2G p.x a ∧ fxP2G p.x a < 3/2)
    (hmom : ∀ n, (p2g svd ps).v n = (p2g svd ps).m n • v0)
    {p : Particle} (hp : p ∈ ps)
    (hmargin : ∀ a : Fin 3, 3 ≤ baseP2G p.x a ∧ baseP2G p.x a + 2 ≤ (n_grid:ℤ) - 3) :
    g2pNewV (gridOp 0 (p2g svd ps)) p.x = v0 := by
  rw [g2pNewV, accSum_eq, zero_add]
  have key : ∀ o ∈ nbhd,
      weightG2P p.x o • (gridOp (0:Vec3) (p2g svd ps)).v (nodeOfG2P p.x o)
        = weightP2G p.x o • v0 :=
    fun o ho => gridV_translation hfx hmom hp hmargin ho
  rw [listSum_congr key, listSum_smul_const, weightP2G_total, one_smul]

/-- **C8.** If every particle has the same velocity `v0`, zero affine
velocity, identity deformation gradient, gravity is zero, the SVD oracle
is valid at the identity (so the corotational stress vanishes), and every
particle's interpolation neighbourhood lies in the interior away from the
wall margins, then one `substep` leaves every velocity equal to `v0` and
advances every position by exactly `dt · v0`. -/
theorem C8_rigid_translation (svd : Svd) (grav v0 : Vec3) (ps : List Particle)
    (hsig : (svd 1).2.1 = 1)
    (hUV : (svd 1).1 * ((svd 1).2.2).transpose = 1)
    (hgrav : grav = 0)
    (hF : ∀ p ∈ ps, p.F = 1)
    (hC : ∀ p ∈ ps, p.C = 0)
    (hv : ∀ p ∈ ps, p.v = v0)
    (hpos : ∀ p ∈ ps, ∀ a : Fin 3, 1/2 ≤ p.x a * inv_dx)
    (hmargin : ∀ p ∈ ps, ∀ a : Fin 3,
      3 ≤ baseP2G p.x a ∧ baseP2G p.x a + 2 ≤ (n_grid:ℤ) - 3) :
    (substep svd grav ps).map (fun p => p.v) = ps.map (fun _ => v0)
    ∧ (substep svd grav ps).map (fun p => p.x) = ps.map (fun p => p.x + dt • v0) := by
  subst hgrav
  have hfx : ∀ p ∈ ps, ∀ a : Fin 3, 1/2 ≤ fxP2G p.x a ∧ fxP2G p.x a < 3/2 :=
    fun p hp a => fxP2G_bounds (hpos p hp a)
  have hstress : ∀ p ∈ ps, stressOf svd p = 0 :=
    fun p hp => stress_at_identity hsig hUV (hF p hp)
  have hmomc : ∀ p ∈ ps, ∀ o : Fin 3 × Fin 3 × Fin 3,
      momContrib svd p o = massContrib p o • v0 :=
    fun p hp o => momContrib_translation (hstress p hp) (hv p hp) (hC p hp) o
  have hmom : ∀ n, (p2g svd ps).v n = (p2g svd ps).m n • v0 :=
    p2g_momentum_translation hmomc
  constructor
  · show (ps.map fun p =>
        g2pParticle (gridOp 0 (p2g svd ps)) (p2gJp svd p)).map (fun q => q.v) = _
    rw [List.map_map]
    apply listMap_congr
    intro p hp
    show g2pNewV (gridOp 0 (p2g svd ps)) p.x = v0
    exact g2pNewV_translation hfx hmom hp (hmargin p hp)
  · show (ps.map fun p =>
        g2pParticle (gridOp 0 (p2g svd ps)) (p2gJp svd p)).map (fun q => q.x) = _
    rw [List.map_map]
    apply listMap_congr
    intro p hp
    show p.x + dt • g2pNewV (gridOp 0 (p2g svd ps)) p.x = p.x + dt • v0
    rw [g2pNewV_translation hfx hmom hp (hmargin p hp)]

/-- Witness for C8: one interior particle with velocity `(1, 2, 3)`. -/
theorem C8_witness :
    (∀ p ∈ [pMove], ∀ a : Fin 3,
      3 ≤ baseP2G p.x a ∧ baseP2G p.x a + 2 ≤ (n_grid:ℤ) - 3)
    ∧ (substep svdId 0 [pMove]).map (fun p => p.v) = [pMove].map (fun _ => ![1, 2, 3])
    ∧ (substep svdId 0 [pMove]).map (fun p => p.x)
        = [pMove].map (fun p => p.x + dt • ![1, 2, 3]) := by
  have hmargin : ∀ p ∈ [pMove], ∀ a : Fin 3,
      3 ≤ baseP2G p.x a ∧ baseP2G p.x a + 2 ≤ (n_grid:ℤ) - 3 := by
    intro p hp a
    rcases List.mem_singleton.mp hp with rfl
    show 3 ≤ castInt ((1/2:ℚ) * inv_dx - 1/2)
      ∧ castInt ((1/2:ℚ) * inv_dx - 1/2) + 2 ≤ (n_grid:ℤ) - 3
    rw [castInt, if_pos (by norm_num [inv_dx, n_grid])]
    norm_num [inv_dx, n_grid]
  have hmain := C8_rigid_translation svdId 0 ![1, 2, 3] [pMove] rfl
    (by show (1 : Mat3) * (1 : Mat3).transpose = 1
        rw [Matrix.transpose_one, mul_one])
    rfl
    (by intro p hp; rcases List.mem_singleton.mp hp with rfl; rfl)
    (by intro p hp; rcases List.mem_singleton.mp hp with rfl; rfl)
    (by intro p hp; rcases List.mem_singleton.mp hp with rfl; rfl)
    (by intro p hp a
        rcases List.mem_singleton.mp hp with rfl
        show (1/2 : ℚ) ≤ 1/2 * inv_dx
        norm_num [inv_dx, n_grid])
    hmargin
  exact ⟨hmargin, hmain.1, hmain.2⟩

end MPM
